import Mathlib

/-!
Verification development for the marketplace ad monitor (`fb_ad_monitor.py`).

The file shallowly embeds the core pipeline of the program:

* the per-source keyword filter engine (`apply_filters`),
* the listing extractor (`extract_ad_details`),
* the durable ledger operations (insert / touch / prune over the
  `ad_changes` table),
* the ingestion pass (`check_for_new_ads`) with its run guard,
* the feed assembler (`generate_rss_feed_from_db` and the `rss` endpoint).

Modelling conventions:

* JSON configuration values are modelled by the inductive `JVal`;
  Python dictionaries become association lists with first-match lookup.
* ISO-8601 UTC timestamp strings (which the program compares with `<` in
  SQLite, lexicographically, and which compare consistently with
  chronological order for this fixed format) are modelled as `Nat`.
* The MD5 hex digest `get_ads_hash` is an external hash; it is modelled as
  an abstract function field `hashFn` of the monitor (the spec assumes the
  digest collision-free).
* The wall clock `datetime.now(timezone.utc)` is modelled as a timestamp
  parameter `now` of the pass.
* BeautifulSoup parsing is external; a parsed page is a list of anchors
  (`<a href=...>` nodes), each carrying its `href` attribute and the text
  of the first title-styled span and the first `dir="auto"` span inside
  it, when such spans exist.  Wholly unparseable markup is the
  `Markup.unparseable` case.
* sqlite errors are injected through a fault oracle, so that the
  error-containment structure of the pass can be stated.
-/

/-- A JSON-like Python value, as found in the loaded configuration
(`url_filters` values and below). -/
inductive JVal where
  | str (s : String)
  | num (n : Int)
  | bool (b : Bool)
  | null
  | list (xs : List JVal)
  | dict (kvs : List (String × JVal))

/-- Python `dict.get`: first-match lookup in an association list. -/
def dictGet (kvs : List (String × JVal)) (k : String) : Option JVal :=
  match kvs with
  | [] => none
  | (k', v) :: rest => if k' = k then some v else dictGet rest k

/-- Python truth-value test `not x` for a JSON-like value: `x` is falsy
iff it is `""`, `0`, `False`, `None`, `[]` or `{}`. -/
def pyFalsy : JVal → Bool
  | .str s => s.data.isEmpty
  | .num n => n == 0
  | .bool b => !b
  | .null => true
  | .list xs => xs.isEmpty
  | .dict kvs => kvs.isEmpty

/-- Does the character list `n` occur at the head of `h`? -/
def charsAt : List Char → List Char → Bool
  | [], _ => true
  | _ :: _, [] => false
  | a :: as, b :: bs => a == b && charsAt as bs

/-- Substring test on character lists (Python `n in h` for strings). -/
def charsIn (n : List Char) : List Char → Bool
  | [] => n.isEmpty
  | b :: bs => charsAt n (b :: bs) || charsIn n bs

/-- Python string containment `n in h`. -/
def strIn (n h : String) : Bool := charsIn n.data h.data

/-- Python `s.startswith(pre)`. -/
def strStarts (pre s : String) : Bool := charsAt pre.data s.data

/-- Python `s.lower()` (the strings handled here are ASCII). -/
def lowerStr (s : String) : String := ⟨s.data.map Char.toLower⟩

/-- Is `k` of the form `level<digits>`?  Source:
`k.startswith('level') and k[5:].isdigit()` (Python's `''.isdigit()` is
`False`, so at least one digit is required). -/
def isLevelKey (k : String) : Bool :=
  strStarts "level" k && !(k.data.drop 5).isEmpty && (k.data.drop 5).all Char.isDigit

/-- Decimal value of a digit string, accumulator style. -/
def digitsVal : List Char → Nat → Nat
  | [], acc => acc
  | c :: cs, acc => digitsVal cs (acc * 10 + (c.toNat - 48))

/-- The numeric sort key `int(k[5:])` of a level key. -/
def levelNum (k : String) : Nat := digitsVal (k.data.drop 5) 0

/-- Stable insertion of `x` into a list sorted by `levelNum`. -/
def insortLevel (x : String) : List String → List String
  | [] => [x]
  | y :: ys => if levelNum x ≤ levelNum y then x :: y :: ys else y :: insortLevel x ys

/-- Python `sorted(..., key=lambda x: int(x[5:]))` (stable). -/
def sortLevels : List String → List String
  | [] => []
  | x :: xs => insortLevel x (sortLevels xs)

/-- One step of the generator
`any(keyword.lower() in title_lower for keyword in keywords)`:
evaluated lazily left to right; a keyword that is not a string raises
(`AttributeError` from `.lower()`), modelled as `Except.error`. -/
def anyKwMatch (titleLower : String) : List JVal → Except Unit Bool
  | [] => .ok false
  | .str s :: rest =>
      if strIn (lowerStr s) titleLower then .ok true else anyKwMatch titleLower rest
  | _ :: _ => .error ()

/-- The level loop of `apply_filters`: for each level key (in order),
fetch its keyword value; a non-list value or an empty list imposes no
constraint (`continue`); otherwise the title must match at least one
keyword, and a raised exception propagates. -/
def runLevels (kvs : List (String × JVal)) (titleLower : String) :
    List String → Except Unit Bool
  | [] => .ok true
  | lv :: rest =>
      match dictGet kvs lv with
      | some (.list kws) =>
          if kws.isEmpty then runLevels kvs titleLower rest
          else
            match anyKwMatch titleLower kws with
            | .ok true => runLevels kvs titleLower rest
            | .ok false => .ok false
            | .error e => .error e
      | some _ => runLevels kvs titleLower rest
      | none => runLevels kvs titleLower rest

/-- The monitor's configuration state relevant to the core pipeline.
`url_filters` is the per-source filter policy dictionary; the monitored
URLs are its keys.  `hashFn` models the MD5 digest `get_ads_hash` and
`local_time` models the UTC→local timezone conversion. -/
structure Monitor where
  url_filters : List (String × JVal)
  currency : String
  hashFn : String → String
  local_time : Nat → Nat

/-- `self.urls_to_monitor = list(self.url_filters.keys())`. -/
def urls_to_monitor (m : Monitor) : List String := m.url_filters.map Prod.fst

/-- The body of `apply_filters` once the source's policy value has been
fetched: a falsy value or a non-dictionary passes everything; otherwise
the `levelN` keys are collected, numerically sorted and evaluated, with
any raised exception caught and turned into `False`. -/
def applyFiltersVal (filters : JVal) (title : String) : Bool :=
  if pyFalsy filters then true
  else
    match filters with
    | .dict kvs =>
        let level_keys := sortLevels ((kvs.map Prod.fst).filter isLevelKey)
        if level_keys.isEmpty then true
        else
          match runLevels kvs (lowerStr title) level_keys with
          | .ok b => b
          | .error _ => false
    | _ => true

/-- `fbRssAdMonitor.apply_filters(url, title)`: evaluates the per-source
leveled keyword policy on an ad title; a source with no policy entry
passes every title. -/
def apply_filters (m : Monitor) (url title : String) : Bool :=
  match dictGet m.url_filters url with
  | none => true
  | some filters => applyFiltersVal filters title

/-- An `<a href=...>` node of the parsed page, as the extractor sees it:
its `href` attribute, the stripped text of the first span inside it whose
`style` contains `-webkit-line-clamp` (the title heuristic), and the
stripped text of the first span inside it with `dir="auto"` (the price
heuristic); `none` when no such span exists. -/
structure Anchor where
  href : String
  titleSpan : Option String
  priceSpan : Option String
  deriving DecidableEq

/-- The result of handing page markup to the parser: either the list of
anchor nodes in document order, or a wholly unparseable document (any
exception raised while parsing/walking the soup). -/
inductive Markup where
  | parsed (anchors : List Anchor)
  | unparseable

/-- `FACEBOOK_BASE_URL`. -/
def FACEBOOK_BASE_URL : String := "https://facebook.com"

/-- The listing path test `href.startswith('/marketplace/item/')`,
together with the preceding `not href` emptiness test. -/
def validHref (h : String) : Bool :=
  !h.data.isEmpty && strStarts "/marketplace/item/" h

/-- The characters before the first `'?'`. -/
def takeBeforeQuery : List Char → List Char
  | [] => []
  | c :: cs => if c == '?' then [] else c :: takeBeforeQuery cs

/-- `href.split('?')[0]`: the part of the link before any query string. -/
def stripQuery (s : String) : String := ⟨takeBeforeQuery s.data⟩

/-- `f"{FACEBOOK_BASE_URL}{href.split('?')[0]}"`: the canonical listing
URL of an anchor. -/
def fullUrl (href : String) : String := FACEBOOK_BASE_URL ++ stripQuery href

/-- The canonical URL of an anchor, or `none` when its href fails the
listing-path test (such anchors are skipped). -/
def canonOf (a : Anchor) : Option String :=
  if validHref a.href then some (fullUrl a.href) else none

/-- The price-format test
`price.startswith(self.currency) or 'free' in price.lower()`. -/
def priceGate (currency price : String) : Bool :=
  strStarts currency price || strIn "free" (lowerStr price)

/-- An extracted ad record `(ad_id_hash, title, price, ad_url)`. -/
abbrev AdRec := String × String × String × String

/-- The anchor loop of `extract_ad_details`, carrying the
`processed_urls` set: skip anchors with invalid hrefs, skip canonical
URLs already seen on this page (the URL is marked processed before the
title/price search), and accept an anchor only if a title span and a
price span are found, the price passes the currency gate, and the title
passes the source's filters. -/
def extractLoop (m : Monitor) (src : String) :
    List Anchor → List String → List AdRec
  | [], _ => []
  | a :: rest, processed =>
      if validHref a.href then
        let fu := fullUrl a.href
        if fu ∈ processed then extractLoop m src rest processed
        else
          match a.titleSpan, a.priceSpan with
          | some t, some p =>
              if priceGate m.currency p then
                if apply_filters m src t then
                  (m.hashFn fu, t, p, fu) :: extractLoop m src rest (fu :: processed)
                else extractLoop m src rest (fu :: processed)
              else extractLoop m src rest (fu :: processed)
          | _, _ => extractLoop m src rest (fu :: processed)
      else extractLoop m src rest processed

/-- `fbRssAdMonitor.extract_ad_details(content, source_url)`: extract ad
records from page markup; any parse failure of the whole document is
caught and yields the empty list. -/
def extract_ad_details (m : Monitor) (content : Markup) (source_url : String) :
    List AdRec :=
  match content with
  | .parsed anchors => extractLoop m source_url anchors []
  | .unparseable => []

/-- One row of the `ad_changes` table: `url` holds the value bound to the
`url` column by the INSERT (the listing's canonical URL `ad_url`),
`ad_id` the hash of that URL (UNIQUE in the schema), and the two
timestamps.  Timestamps are modelled as `Nat` (see the file header). -/
structure Entry where
  url : String
  ad_id : String
  title : String
  price : String
  first_seen : Nat
  last_checked : Nat
  deriving DecidableEq

/-- The `ad_changes` table, rows in insertion (rowid) order. -/
abbrev DB := List Entry

/-- `SELECT ad_id FROM ad_changes WHERE ad_id = ?` followed by
`fetchone()`. -/
def dbFind (db : DB) (id : String) : Option Entry :=
  db.find? (fun e => decide (e.ad_id = id))

/-- `UPDATE ad_changes SET last_checked = ? WHERE ad_id = ?`. -/
def dbTouch (db : DB) (id : String) (now : Nat) : DB :=
  db.map (fun e => if e.ad_id = id then { e with last_checked := now } else e)

/-- `DELETE FROM ad_changes WHERE <p>`, returning the remaining rows and
the statement's `rowcount`. -/
def deleteWhere (p : Entry → Bool) : DB → DB × Nat
  | [] => ([], 0)
  | e :: rest =>
      let r := deleteWhere p rest
      if p e then (r.1, r.2 + 1) else (e :: r.1, r.2)

/-- `fbRssAdMonitor.prune_old_ads`: deletes the rows whose `last_checked`
is strictly before the cutoff; the second component is the deleted-row
count the function reports (`cursor.rowcount`). -/
def prune_old_ads (db : DB) (cutoff : Nat) : DB × Nat :=
  deleteWhere (fun e => decide (e.last_checked < cutoff)) db

/-- A `PyRSS2Gen.RSSItem` as built by this program: title
`f"{title} - {price}"`, the listing link, description
`f"Price: {price} | Title: {title}"`, the ad-id hash as GUID, and the
localized publication timestamp. -/
structure RSSItem where
  title : String
  link : String
  description : String
  guid : String
  pubDate : Nat
  deriving DecidableEq

/-- Builds the `RSSItem` for a ledger row (`check_for_new_ads` builds it
with `pubDate = local_time(now)` at creation time, where the row has
`last_checked = now`; `generate_rss_feed_from_db` builds it from the row
with `pubDate = local_time(last_checked)`; both are this function). -/
def mkRSSItem (m : Monitor) (e : Entry) : RSSItem :=
  { title := e.title ++ " - " ++ e.price
    link := e.url
    description := "Price: " ++ e.price ++ " | Title: " ++ e.title
    guid := e.ad_id
    pubDate := m.local_time e.last_checked }

/-- The row inserted for a newly discovered ad:
`INSERT INTO ad_changes (url, ad_id, title, price, first_seen,
last_checked) VALUES (ad_url, ad_id, title, price, now_iso, now_iso)`.
Note the `url` column receives the listing URL `ad_url`. -/
def newEntry (r : AdRec) (now : Nat) : Entry :=
  { url := r.2.2.2
    ad_id := r.1
    title := r.2.1
    price := r.2.2.1
    first_seen := now
    last_checked := now }

/-- Outcome of executing the INSERT for one ad: success, a
`sqlite3.IntegrityError` (unique-constraint race), or another
`sqlite3.Error`. -/
inductive WriteRes where
  | ok
  | integrityErr
  | dbErr
  deriving DecidableEq

/-- Fault oracle for one ad's store writes: the INSERT outcome, and
whether the bare `UPDATE ... SET last_checked` statement succeeds
(`update = false` models it raising a `sqlite3.Error`). -/
structure AdFaults where
  insert : WriteRes
  update : Bool

/-- The all-succeed fault oracle. -/
def noFaults : String → AdFaults := fun _ => { insert := .ok, update := true }

/-- The mutable state the ingestion pass threads through its loops: the
table, the live feed item list `self.rss_feed.items`, and the pass-local
`added_ad_ids_this_run` set and new-ad counter. -/
structure PassState where
  db : DB
  rssItems : List RSSItem
  addedIds : List String
  newCount : Nat
  deriving DecidableEq

/-- Processing of one extracted ad inside `check_for_new_ads` (the body
of `for ad_id, title, price, ad_url in ads:`).  `Except.error` is an
exception escaping to the per-URL handler (a failed bare UPDATE); its
payload is the state at that point.  A `sqlite3.Error` of the INSERT is
caught on the spot: that listing's write is rolled back and processing
goes on. -/
def processAd (m : Monitor) (faults : String → AdFaults) (now : Nat)
    (r : AdRec) (s : PassState) : Except PassState PassState :=
  if r.1 ∈ s.addedIds then .ok s
  else
    match dbFind s.db r.1 with
    | none =>
        match (faults r.1).insert with
        | .ok =>
            .ok { db := s.db ++ [newEntry r now]
                  rssItems := mkRSSItem m (newEntry r now) :: s.rssItems
                  addedIds := r.1 :: s.addedIds
                  newCount := s.newCount + 1 }
        | .integrityErr =>
            if (faults r.1).update then .ok { s with db := dbTouch s.db r.1 now }
            else .error s
        | .dbErr => .ok s
    | some _ =>
        if (faults r.1).update then .ok { s with db := dbTouch s.db r.1 now }
        else .error s

/-- The ad loop of `check_for_new_ads` over one source's extracted ads;
an escaping exception aborts the remaining ads of this source. -/
def processAds (m : Monitor) (faults : String → AdFaults) (now : Nat) :
    List AdRec → PassState → Except PassState PassState
  | [], s => .ok s
  | r :: rest, s =>
      match processAd m faults now r s with
      | .ok s' => processAds m faults now rest s'
      | .error s' => .error s'

/-- Processing of one monitored URL inside the pass: fetch the page
(`none` models a Selenium initialization failure or
`get_page_content` returning no content — the source is skipped), extract
its ads, and run the ad loop; the per-URL `except` handler catches an
escaping exception and the pass continues with the state reached so
far. -/
def processUrl (m : Monitor) (faults : String → AdFaults)
    (fetch : String → Option Markup) (now : Nat) (url : String)
    (s : PassState) : PassState :=
  match fetch url with
  | none => s
  | some content =>
      match processAds m faults now (extract_ad_details m content url) s with
      | .ok s' => s'
      | .error s' => s'

/-- The URL loop of the pass, in configured order. -/
def processUrls (m : Monitor) (faults : String → AdFaults)
    (fetch : String → Option Markup) (now : Nat) :
    List String → PassState → PassState
  | [], s => s
  | u :: rest, s =>
      processUrls m faults fetch now rest (processUrl m faults fetch now u s)

/-- `timedelta(days=14)` in seconds: the ledger retention window used by
the prune call at the end of the pass. -/
def fourteenDays : Nat := 14 * 86400

/-- The body of `check_for_new_ads` once the database connection is
obtained: the URL loop followed by `prune_old_ads` at the 14-day
cutoff. -/
def passBody (m : Monitor) (faults : String → AdFaults)
    (fetch : String → Option Markup) (now : Nat) (s : PassState) : PassState :=
  let s1 := processUrls m faults fetch now (urls_to_monitor m) s
  { s1 with db := (prune_old_ads s1.db (now - fourteenDays)).1 }

/-- The observable outcome of one trigger of `check_for_new_ads`. -/
inductive PassOutcome where
  | skipped
  | completed
  | failed
  deriving DecidableEq

/-- The run-guard wrapper of `check_for_new_ads`:
`job_lock.acquire(blocking=False)` — if the lock is already held the
trigger logs "already running" and returns at once, before any store
access; otherwise the body runs (it may end exceptionally) and the
`finally` block releases the lock in every case.  Returns the outcome,
the lock state after the call, and the state after the call. -/
def guardedRun (body : PassState → Except PassState PassState)
    (lock : Bool) (s : PassState) : PassOutcome × Bool × PassState :=
  if lock then (.skipped, lock, s)
  else
    match body s with
    | .ok s' => (.completed, false, s')
    | .error s' => (.failed, false, s')

/-- `fbRssAdMonitor.check_for_new_ads`: the guarded ingestion pass.
`connOk = false` models `get_db_connection()` returning `None`, upon
which the pass aborts (still releasing the lock) without touching the
state. -/
def check_for_new_ads (m : Monitor) (faults : String → AdFaults)
    (fetch : String → Option Markup) (now : Nat) (connOk : Bool)
    (lock : Bool) (s : PassState) : PassOutcome × Bool × PassState :=
  guardedRun
    (fun st => if connOk then .ok (passBody m faults fetch now st) else .error st)
    lock s

/-- The result of trying to read the recent window from the store: the
connection could not be established (`get_db_connection` returned
`None`), the read raised (`sqlite3.DatabaseError` or any other
exception), or the rows were fetched. -/
inductive DbRead where
  | noConn
  | readErr
  | ok (db : DB)

/-- The feed object `self.rss_feed`: its item list and last build
date. -/
structure Feed where
  items : List RSSItem
  lastBuildDate : Nat
  deriving DecidableEq

/-- `timedelta(days=7)` in seconds: the feed's relevant period. -/
def sevenDays : Nat := 7 * 86400

/-- Descending insertion by `last_checked` (the query's
`ORDER BY last_checked DESC`). -/
def insortDesc (e : Entry) : List Entry → List Entry
  | [] => [e]
  | x :: xs =>
      if x.last_checked ≤ e.last_checked then e :: x :: xs
      else x :: insortDesc e xs

/-- Sort rows by `last_checked` descending. -/
def sortDesc : List Entry → List Entry
  | [] => []
  | x :: xs => insortDesc x (sortDesc xs)

/-- The rows returned by the feed query:
`WHERE last_checked >= ? ORDER BY last_checked DESC LIMIT 100` with the
7-day cutoff. -/
def recentRows (db : DB) (now : Nat) : List Entry :=
  (sortDesc (db.filter (fun e => decide (now - sevenDays ≤ e.last_checked)))).take 100

/-- `fbRssAdMonitor.generate_rss_feed_from_db`: rebuilds the feed object
from the store.  When no connection can be obtained the method returns
early and the previous items are kept; when the read raises, the item
list is cleared; on success the item list is recomputed from the fetched
rows and the build date refreshed. -/
def generate_rss_feed_from_db (m : Monitor) (read : DbRead) (now : Nat)
    (feed : Feed) : Feed :=
  match read with
  | .noConn => feed
  | .readErr => { feed with items := [] }
  | .ok db => { items := (recentRows db now).map (mkRSSItem m), lastBuildDate := now }

/-- The `/rss` endpoint handler: regenerates the feed from the store on
every request and serves the resulting item list. -/
def rss (m : Monitor) (read : DbRead) (now : Nat) (feed : Feed) :
    List RSSItem × Feed :=
  let f := generate_rss_feed_from_db m read now feed
  (f.items, f)

/-- The association list underlying a well-formed policy: level keys
mapped to keyword lists, embedded into the configuration value space. -/
def policyKvs (pol : List (String × List String)) : List (String × JVal) :=
  pol.map (fun p => (p.1, .list (p.2.map .str)))

/-- A well-formed policy in the sense of the spec, as a configuration
value. -/
def policyToJVal (pol : List (String × List String)) : JVal :=
  .dict (policyKvs pol)

/-- The spec's example policy `{level1: ["a","b"], level2: ["c"]}`. -/
def polEx : List (String × List String) := [("level1", ["a", "b"]), ("level2", ["c"])]

/-- A monitor whose source `"u"` carries the example policy. -/
def mEx : Monitor :=
  { url_filters := [("u", policyToJVal polEx)]
    currency := "$"
    hashFn := fun s => s
    local_time := fun t => t }

/-- A monitor whose source `"u"` has a policy with a non-string keyword
entry (`{level1: [7]}`). -/
def mBadKw : Monitor :=
  { url_filters := [("u", .dict [("level1", .list [.num 7])])]
    currency := "$"
    hashFn := fun s => s
    local_time := fun t => t }

/-- The same monitor with the offending entry removed
(`{level1: []}`). -/
def mBadKwRemoved : Monitor :=
  { url_filters := [("u", .dict [("level1", .list [])])]
    currency := "$"
    hashFn := fun s => s
    local_time := fun t => t }

/-- A monitor whose source `"S"` carries the restrictive policy
`{level1: ["a"]}`. -/
def mGate : Monitor :=
  { url_filters := [("S", .dict [("level1", .list [.str "a"])])]
    currency := "$"
    hashFn := fun s => s
    local_time := fun t => t }

/-- An anchor with a valid listing href, a found title span `"xyz"` and a
found price span `"$50"` passing the currency gate. -/
def aGate : Anchor :=
  { href := "/marketplace/item/9", titleSpan := some "xyz", priceSpan := some "$50" }

/-- A monitor with no filter policies and one anchor page each. -/
def mPlain : Monitor :=
  { url_filters := [("S", .null)]
    currency := "$"
    hashFn := fun s => s
    local_time := fun t => t }

/-- First listing anchor of the two-listing page. -/
def aOne : Anchor :=
  { href := "/marketplace/item/1", titleSpan := some "t1", priceSpan := some "$1" }

/-- Second listing anchor of the two-listing page. -/
def aTwo : Anchor :=
  { href := "/marketplace/item/2", titleSpan := some "t2", priceSpan := some "$2" }

/-- Canonical URL of `aOne`. -/
def urlOne : String := "https://facebook.com/marketplace/item/1"

/-- Canonical URL of `aTwo`. -/
def urlTwo : String := "https://facebook.com/marketplace/item/2"

/-- A fetcher serving the two-listing page for source `"S"`. -/
def fetchTwo : String → Option Markup :=
  fun u => if u = "S" then some (.parsed [aOne, aTwo]) else none

/-- A ledger already holding `aOne`'s listing. -/
def dbOne : DB :=
  [{ url := urlOne, ad_id := urlOne, title := "t1", price := "$1",
     first_seen := 5, last_checked := 5 }]

/-- Pass state over `dbOne` with an empty feed and fresh pass-local
sets. -/
def sOne : PassState := { db := dbOne, rssItems := [], addedIds := [], newCount := 0 }

/-- Fault oracle failing exactly the `last_checked` UPDATE of `aOne`'s
listing. -/
def faultUpdOne : String → AdFaults :=
  fun i => if i = urlOne then { insert := .ok, update := false }
           else { insert := .ok, update := true }

/-- A monitor watching two sources `"S1"`, `"S2"`, no filter
constraints. -/
def mTwoSrc : Monitor :=
  { url_filters := [("S1", .null), ("S2", .null)]
    currency := "$"
    hashFn := fun s => s
    local_time := fun t => t }

/-- The shared listing anchor appearing on both sources' pages. -/
def aShared : Anchor :=
  { href := "/marketplace/item/7", titleSpan := some "tt", priceSpan := some "$9" }

/-- Canonical URL of `aShared`. -/
def urlShared : String := "https://facebook.com/marketplace/item/7"

/-- A fetcher serving the same one-listing page for every source. -/
def fetchShared : String → Option Markup := fun _ => some (.parsed [aShared])

/-- The empty pass state. -/
def sEmpty : PassState := { db := [], rssItems := [], addedIds := [], newCount := 0 }

/-- A feed already holding one item, for the staleness counterexample. -/
def feedStale : Feed :=
  { items := [{ title := "t - $1", link := "L", description := "Price: $1 | Title: t",
                guid := "i", pubDate := 3 }]
    lastBuildDate := 0 }

/-- A two-row ledger around the prune cutoff `10`. -/
def dbPrune : DB :=
  [{ url := "a", ad_id := "a", title := "ta", price := "$1",
     first_seen := 1, last_checked := 3 },
   { url := "b", ad_id := "b", title := "tb", price := "$2",
     first_seen := 2, last_checked := 10 }]

/-- A re-sighting scenario: the ledger knows listing `"x"`. -/
def dbResight : DB :=
  [{ url := "https://facebook.com/marketplace/item/x", ad_id := "hx",
     title := "tx", price := "$4", first_seen := 11, last_checked := 20 }]

/-- State around `dbResight`. -/
def sResight : PassState :=
  { db := dbResight, rssItems := [], addedIds := [], newCount := 0 }

/-- The re-sighted ad record for listing `"x"`. -/
def rResight : AdRec :=
  ("hx", "tx2", "$5", "https://facebook.com/marketplace/item/x")

/-- Two anchors pointing at the same canonical listing URL: the first
lacks a title span, the second is fully acceptable. -/
def aDupFirst : Anchor :=
  { href := "/marketplace/item/3?ref=feed", titleSpan := none, priceSpan := some "$3" }

/-- Second anchor for the same listing as `aDupFirst`, carrying valid
title and price. -/
def aDupSecond : Anchor :=
  { href := "/marketplace/item/3", titleSpan := some "t3", priceSpan := some "$3" }

/-- The acceptance condition under which extraction emits the record
`(i, t, p, u)`: `a` is the first anchor in document order whose
canonical URL is `u`, a title span and a price span were found in it,
the price passes the currency gate, the title passes the source's
filters, and `i` is the hash of `u`. -/
def FirstAccepted (m : Monitor) (src : String) (as : List Anchor)
    (i t p u : String) : Prop :=
  ∃ pre a post, as = pre ++ a :: post
    ∧ canonOf a = some u
    ∧ (∀ b ∈ pre, canonOf b ≠ some u)
    ∧ a.titleSpan = some t ∧ a.priceSpan = some p
    ∧ priceGate m.currency p = true
    ∧ apply_filters m src t = true
    ∧ i = m.hashFn u

/-- `e` differs from `e0` at most in `last_checked`, which is either
unchanged or set to `now`: the effect on a pre-existing row of any number
of `last_checked` updates within a pass. -/
def Traceable (now : Nat) (e e0 : Entry) : Prop :=
  e.ad_id = e0.ad_id ∧ e.url = e0.url ∧ e.title = e0.title
    ∧ e.price = e0.price ∧ e.first_seen = e0.first_seen
    ∧ (e.last_checked = e0.last_checked ∨ e.last_checked = now)

/-- `e` is the row inserted for record `r` in this pass (its `url` column
holds the record's listing URL and both timestamps are the pass's
clock), possibly touched again later in the same pass. -/
def FreshFrom (now : Nat) (r : AdRec) (e : Entry) : Prop :=
  e.ad_id = r.1 ∧ e.title = r.2.1 ∧ e.price = r.2.2.1 ∧ e.url = r.2.2.2
    ∧ e.first_seen = now ∧ e.last_checked = now

/-- The `ad_id` column of the table, in row order (UNIQUE in the
schema). -/
def adIds (db : DB) : List String := db.map (fun e => e.ad_id)

/-! ### Theorems -/

theorem deleteWhere_fst (p : Entry → Bool) (db : DB) :
    (deleteWhere p db).1 = db.filter (fun e => !p e) := by
  induction db with
  | nil => rfl
  | cons e rest ih =>
      simp only [deleteWhere]
      cases hp : p e <;> simp [List.filter, hp, ih]

theorem deleteWhere_snd (p : Entry → Bool) (db : DB) :
    (deleteWhere p db).2 = (db.filter p).length := by
  induction db with
  | nil => rfl
  | cons e rest ih =>
      simp only [deleteWhere]
      cases hp : p e <;> simp [List.filter, hp, ih]

/-- Claim C8: for every ledger state and cutoff timestamp, the prune
operation removes exactly the entries whose `last_checked` is strictly
older than the cutoff, retains every entry whose `last_checked` is at or
after the cutoff, and reports the number of entries deleted. -/
theorem prune_removes_exactly_older (db : DB) (cutoff : Nat) :
    (prune_old_ads db cutoff).1
        = db.filter (fun e => decide (cutoff ≤ e.last_checked))
    ∧ (prune_old_ads db cutoff).2
        = (db.filter (fun e => decide (e.last_checked < cutoff))).length
    ∧ ∀ e ∈ db, (e ∈ (prune_old_ads db cutoff).1 ↔ cutoff ≤ e.last_checked) := by
  have h1 : (prune_old_ads db cutoff).1
      = db.filter (fun e => decide (cutoff ≤ e.last_checked)) := by
    rw [prune_old_ads, deleteWhere_fst]
    apply List.filter_congr
    intro e _
    by_cases h : cutoff ≤ e.last_checked
    · simp [h, Nat.not_lt.mpr h]
    · simp [h, Nat.lt_of_not_le h]
  refine ⟨h1, deleteWhere_snd _ db, ?_⟩
  intro e he
  rw [h1]
  simp [List.mem_filter, he]

/-- Witness for C8 at a concrete ledger: the entry last checked at `3`
is gone after pruning at cutoff `10`. -/
theorem prune_removes_exactly_older_witness :
    ¬ ({ url := "a", ad_id := "a", title := "ta", price := "$1",
         first_seen := 1, last_checked := 3 : Entry }
        ∈ (prune_old_ads dbPrune 10).1) := by
  intro h
  have := ((prune_removes_exactly_older dbPrune 10).2.2 _ (by decide)).mp h
  exact absurd this (by decide)

/-- Claim C9: at most one ingestion pass is in flight.  A trigger that
finds the guard held observes the "skipped" outcome and leaves the state
untouched, before any store access; a trigger that acquires the guard
always leaves it released at the end, whether the body completed or ended
exceptionally.  Hence of two concurrent triggers (the second arriving
while the first holds the guard) exactly one pass executes. -/
theorem run_guard_exclusive :
    (∀ body s, guardedRun body true s = (.skipped, true, s))
    ∧ (∀ body s, (guardedRun body false s).2.1 = false)
    ∧ (∀ m faults fetch now connOk s,
        check_for_new_ads m faults fetch now connOk true s = (.skipped, true, s))
    ∧ (∀ m faults fetch now connOk s,
        (check_for_new_ads m faults fetch now connOk false s).2.1 = false) := by
  refine ⟨fun body s => rfl, fun body s => ?_, fun m fa fe n c s => rfl,
    fun m fa fe n c s => ?_⟩
  · cases h : body s <;> simp [guardedRun, h]
  · cases c <;> simp [check_for_new_ads, guardedRun]

/-- Claim C5 counterexample: when the store connection cannot be
established, the feed build keeps the previously built items and the
endpoint serves them — not an empty feed as the claim states. -/
theorem feed_stale_on_no_connection_cex :
    (generate_rss_feed_from_db mPlain .noConn 99 feedStale).items = feedStale.items
    ∧ feedStale.items ≠ []
    ∧ (rss mPlain .noConn 99 feedStale).1 ≠ [] :=
  ⟨rfl, by decide, by decide⟩

/-- Claim C5 (amended): if the store connection cannot be established the
feed keeps its previously built items (stale content may be served); if
the read fails after a connection was established the item list is
cleared; on a successful read the feed is recomputed fresh from the
store, independently of any previous feed state; the endpoint serves the
freshly rebuilt item list on every request. -/
theorem feed_failure_modes :
    (∀ m now f, generate_rss_feed_from_db m .noConn now f = f)
    ∧ (∀ m now f, (generate_rss_feed_from_db m .readErr now f).items = [])
    ∧ (∀ m now f f' db, generate_rss_feed_from_db m (.ok db) now f
        = generate_rss_feed_from_db m (.ok db) now f')
    ∧ (∀ m read now f, (rss m read now f).1
        = (generate_rss_feed_from_db m read now f).items) :=
  ⟨fun _ _ _ => rfl, fun _ _ _ => rfl, fun _ _ _ _ _ => rfl, fun _ _ _ _ => rfl⟩

/-- Claim C3 counterexample: a non-string keyword entry does not act as
"no constraint": with policy `{level1: [7]}` the title `"xyz"` is
rejected, while it passes once the offending entry is removed. -/
theorem nonstring_keyword_rejects_cex :
    apply_filters mBadKw "u" "xyz" = false
    ∧ apply_filters mBadKwRemoved "u" "xyz" = true := by
  exact ⟨by decide, by decide⟩

theorem mem_insortLevel {x y : String} {l : List String} :
    y ∈ insortLevel x l ↔ y = x ∨ y ∈ l := by
  induction l with
  | nil => simp [insortLevel]
  | cons z zs ih =>
      rw [insortLevel]
      by_cases h : levelNum x ≤ levelNum z
      · simp [h, List.mem_cons]
      · simp only [h, if_false, List.mem_cons, ih]
        tauto

theorem mem_sortLevels {y : String} {l : List String} :
    y ∈ sortLevels l ↔ y ∈ l := by
  induction l with
  | nil => simp [sortLevels]
  | cons x xs ih =>
      rw [sortLevels, mem_insortLevel]
      simp [ih]


theorem runLevels_cons_none {kvs : List (String × JVal)} {t lv : String}
    {rest : List String} (h : dictGet kvs lv = none) :
    runLevels kvs t (lv :: rest) = runLevels kvs t rest := by
  simp only [runLevels, h]

theorem runLevels_cons_nonlist {kvs : List (String × JVal)} {t lv : String}
    {rest : List String} {v : JVal} (h : dictGet kvs lv = some v)
    (hv : ∀ xs, v ≠ JVal.list xs) :
    runLevels kvs t (lv :: rest) = runLevels kvs t rest := by
  cases v with
  | list xs => exact absurd rfl (hv xs)
  | str s => simp only [runLevels, h]
  | num n => simp only [runLevels, h]
  | bool b => simp only [runLevels, h]
  | null => simp only [runLevels, h]
  | dict d => simp only [runLevels, h]

theorem runLevels_cons_list {kvs : List (String × JVal)} {t lv : String}
    {rest : List String} {kws : List JVal}
    (h : dictGet kvs lv = some (.list kws)) :
    runLevels kvs t (lv :: rest) =
      if kws.isEmpty then runLevels kvs t rest
      else
        match anyKwMatch t kws with
        | .ok true => runLevels kvs t rest
        | .ok false => .ok false
        | .error e => .error e := by
  simp only [runLevels, h]

theorem runLevels_not_ok_true {kvs : List (String × JVal)} {t lv : String}
    {kws : List JVal} {lvs : List String} (hmem : lv ∈ lvs)
    (hget : dictGet kvs lv = some (.list kws)) (hnil : kws.isEmpty = false)
    (hne : anyKwMatch t kws ≠ .ok true) :
    runLevels kvs t lvs ≠ .ok true := by
  induction lvs with
  | nil => cases hmem
  | cons x rest ih =>
      by_cases hx : x = lv
      · subst hx
        rw [runLevels_cons_list hget, if_neg (by simp [hnil])]
        cases hm : anyKwMatch t kws with
        | ok b =>
            cases b
            · simp
            · exact absurd hm hne
        | error e => simp
      · have h : lv ∈ rest := by
          rcases List.mem_cons.mp hmem with h' | h'
          · exact absurd h'.symm hx
          · exact h'
        rcases hgx : dictGet kvs x with _ | v
        · rw [runLevels_cons_none hgx]
          exact ih h
        · cases v with
          | list kws' =>
              rw [runLevels_cons_list hgx]
              cases hK : kws'.isEmpty
              · rw [if_neg (by simp [hK])]
                cases hm : anyKwMatch t kws' with
                | ok b =>
                    cases b
                    · simp
                    · simpa using ih h
                | error e => simp
              · rw [if_pos (by simp [hK])]
                exact ih h
          | str s =>
              rw [runLevels_cons_nonlist hgx (fun xs h => JVal.noConfusion h)]
              exact ih h
          | num n =>
              rw [runLevels_cons_nonlist hgx (fun xs h => JVal.noConfusion h)]
              exact ih h
          | bool b =>
              rw [runLevels_cons_nonlist hgx (fun xs h => JVal.noConfusion h)]
              exact ih h
          | null =>
              rw [runLevels_cons_nonlist hgx (fun xs h => JVal.noConfusion h)]
              exact ih h
          | dict d =>
              rw [runLevels_cons_nonlist hgx (fun xs h => JVal.noConfusion h)]
              exact ih h

theorem anyKwMatch_strs (t : String) (ws : List String) :
    anyKwMatch t (ws.map JVal.str) = .ok (ws.any (fun w => strIn (lowerStr w) t)) := by
  induction ws with
  | nil => rfl
  | cons w ws ih =>
      simp only [List.map_cons, anyKwMatch, List.any_cons]
      cases h : strIn (lowerStr w) t
      · simp [h, ih]
      · simp [h]

theorem policyKvs_keys (pol : List (String × List String)) :
    (policyKvs pol).map Prod.fst = pol.map Prod.fst := by
  induction pol with
  | nil => rfl
  | cons q rest ih => simp [policyKvs, ih]

theorem dictGet_policyKvs_shape (pol : List (String × List String)) (lv : String) :
    dictGet (policyKvs pol) lv = none ∨
      ∃ ws, (lv, ws) ∈ pol
        ∧ dictGet (policyKvs pol) lv = some (.list (ws.map JVal.str)) := by
  induction pol with
  | nil => exact .inl rfl
  | cons q rest ih =>
      obtain ⟨k, ws0⟩ := q
      by_cases h : k = lv
      · subst h
        right
        exact ⟨ws0, List.mem_cons_self _ _, by simp [policyKvs, dictGet]⟩
      · rcases ih with h0 | ⟨ws, hmem, heq⟩
        · left
          simpa [policyKvs, dictGet, h] using h0
        · right
          refine ⟨ws, List.mem_cons_of_mem _ hmem, ?_⟩
          simpa [policyKvs, dictGet, h] using heq

theorem dictGet_policyKvs_of_mem {pol : List (String × List String)} {lv : String}
    {ws : List String} (hnd : (pol.map Prod.fst).Nodup) (h : (lv, ws) ∈ pol) :
    dictGet (policyKvs pol) lv = some (.list (ws.map JVal.str)) := by
  induction pol with
  | nil => cases h
  | cons q rest ih =>
      obtain ⟨k, ws0⟩ := q
      rw [List.map_cons, List.nodup_cons] at hnd
      rcases List.mem_cons.mp h with h1 | h1
      · rcases (Prod.mk.injEq _ _ _ _).mp h1 with ⟨rfl, rfl⟩
        simp [policyKvs, dictGet]
      · have hk : k ≠ lv := by
          rintro rfl
          exact hnd.1 (List.mem_map.mpr ⟨(k, ws), h1, rfl⟩)
        simpa [policyKvs, dictGet, hk] using ih hnd.2 h1

theorem not_mem_of_dictGet_policyKvs_none {pol : List (String × List String)}
    {lv : String} (hg : dictGet (policyKvs pol) lv = none) :
    ∀ ws, (lv, ws) ∈ pol → False := by
  induction pol with
  | nil => intro ws h; cases h
  | cons q rest ih =>
      obtain ⟨k, ws0⟩ := q
      intro ws h
      by_cases hk : k = lv
      · subst hk
        simp [policyKvs, dictGet] at hg
      · rcases List.mem_cons.mp h with h1 | h1
        · exact hk ((Prod.mk.injEq _ _ _ _).mp h1.symm).1
        · exact ih (by simpa [policyKvs, dictGet, hk] using hg) ws h1

theorem policy_mem_unique {pol : List (String × List String)} {lv : String}
    {a b : List String} (hnd : (pol.map Prod.fst).Nodup)
    (h1 : (lv, a) ∈ pol) (h2 : (lv, b) ∈ pol) : a = b := by
  have e1 := dictGet_policyKvs_of_mem hnd h1
  have e2 := dictGet_policyKvs_of_mem hnd h2
  rw [e1] at e2
  injection e2 with e2
  injection e2 with e2
  exact List.map_injective_iff.mpr (fun x y hxy => by injection hxy) e2

theorem runLevels_policy_ne_error (pol : List (String × List String))
    (t : String) (lvs : List String) (e : Unit) :
    runLevels (policyKvs pol) t lvs ≠ .error e := by
  induction lvs with
  | nil => simp [runLevels]
  | cons lv rest ih =>
      rcases dictGet_policyKvs_shape pol lv with hg | ⟨ws0, hmem, hg⟩
      · rw [runLevels_cons_none hg]
        exact ih
      · rw [runLevels_cons_list hg]
        cases hK : (ws0.map JVal.str).isEmpty
        · rw [if_neg (by simp [hK]), anyKwMatch_strs]
          cases hany : ws0.any (fun w => strIn (lowerStr w) t)
          · simp
          · simpa using ih
        · rw [if_pos (by simp [hK])]
          exact ih

theorem runLevels_cons_list_empty {kvs : List (String × JVal)} {t lv : String}
    {rest : List String} {kws : List JVal}
    (h : dictGet kvs lv = some (.list kws)) (he : kws.isEmpty = true) :
    runLevels kvs t (lv :: rest) = runLevels kvs t rest := by
  rw [runLevels_cons_list h, if_pos he]

theorem runLevels_cons_list_anyTrue {kvs : List (String × JVal)} {t lv : String}
    {rest : List String} {kws : List JVal}
    (h : dictGet kvs lv = some (.list kws)) (he : kws.isEmpty = false)
    (hany : anyKwMatch t kws = .ok true) :
    runLevels kvs t (lv :: rest) = runLevels kvs t rest := by
  rw [runLevels_cons_list h, if_neg (by simp [he]), hany]

theorem runLevels_cons_list_anyFalse {kvs : List (String × JVal)} {t lv : String}
    {rest : List String} {kws : List JVal}
    (h : dictGet kvs lv = some (.list kws)) (he : kws.isEmpty = false)
    (hany : anyKwMatch t kws = .ok false) :
    runLevels kvs t (lv :: rest) = .ok false := by
  rw [runLevels_cons_list h, if_neg (by simp [he]), hany]

theorem runLevels_cons_list_error {kvs : List (String × JVal)} {t lv : String}
    {rest : List String} {kws : List JVal} {e : Unit}
    (h : dictGet kvs lv = some (.list kws)) (he : kws.isEmpty = false)
    (hany : anyKwMatch t kws = .error e) :
    runLevels kvs t (lv :: rest) = .error e := by
  rw [runLevels_cons_list h, if_neg (by simp [he]), hany]

theorem runLevels_policy_iff {pol : List (String × List String)} (t : String)
    (hnd : (pol.map Prod.fst).Nodup) (lvs : List String) :
    (runLevels (policyKvs pol) t lvs = .ok true ↔
      ∀ lv ∈ lvs, ∀ ws, (lv, ws) ∈ pol → ws ≠ [] →
        ∃ w ∈ ws, strIn (lowerStr w) t = true) := by
  induction lvs with
  | nil => simp [runLevels]
  | cons lv rest ih =>
      rcases dictGet_policyKvs_shape pol lv with hg | ⟨ws0, hmem, hg⟩
      · rw [runLevels_cons_none hg, ih]
        constructor
        · intro hall x hx ws hwmem hne
          rcases List.mem_cons.mp hx with rfl | hx'
          · exact absurd hwmem (fun hc => not_mem_of_dictGet_policyKvs_none hg ws hc)
          · exact hall x hx' ws hwmem hne
        · intro hall x hx ws hwmem hne
          exact hall x (List.mem_cons_of_mem _ hx) ws hwmem hne
      · cases hws0 : ws0 with
        | nil =>
            subst hws0
            rw [runLevels_cons_list_empty hg (by simp), ih]
            constructor
            · intro hall x hx ws hwmem hne
              rcases List.mem_cons.mp hx with rfl | hx'
              · exact absurd (policy_mem_unique hnd hwmem hmem) hne
              · exact hall x hx' ws hwmem hne
            · intro hall x hx ws hwmem hne
              exact hall x (List.mem_cons_of_mem _ hx) ws hwmem hne
        | cons w0 ws0' =>
            subst hws0
            cases hany : (w0 :: ws0').any (fun w => strIn (lowerStr w) t)
            · rw [runLevels_cons_list_anyFalse hg (by simp)
                (by rw [anyKwMatch_strs, hany])]
              constructor
              · intro hfalse
                exact absurd hfalse (by simp)
              · intro hall
                have h1 := hall lv (List.mem_cons_self _ _) (w0 :: ws0') hmem (by simp)
                rcases h1 with ⟨w, hw, hsw⟩
                have : (w0 :: ws0').any (fun w => strIn (lowerStr w) t) = true :=
                  List.any_eq_true.mpr ⟨w, hw, hsw⟩
                rw [this] at hany
                cases hany
            · rw [runLevels_cons_list_anyTrue hg (by simp)
                (by rw [anyKwMatch_strs, hany]), ih]
              constructor
              · intro hall x hx ws hwmem hne
                rcases List.mem_cons.mp hx with rfl | hx'
                · have := policy_mem_unique hnd hwmem hmem
                  subst this
                  rcases List.any_eq_true.mp hany with ⟨w, hw, hsw⟩
                  exact ⟨w, hw, hsw⟩
                · exact hall x hx' ws hwmem hne
              · intro hall x hx ws hwmem hne
                exact hall x (List.mem_cons_of_mem _ hx) ws hwmem hne

theorem applyFiltersVal_dict_ok {kvs : List (String × JVal)} {title : String}
    {b : Bool} (hne : kvs.isEmpty = false)
    (hLne : (sortLevels ((kvs.map Prod.fst).filter isLevelKey)).isEmpty = false)
    (hr : runLevels kvs (lowerStr title)
        (sortLevels ((kvs.map Prod.fst).filter isLevelKey)) = .ok b) :
    applyFiltersVal (.dict kvs) title = b := by
  simp only [applyFiltersVal, pyFalsy, hne, Bool.false_eq_true, if_false, hLne, hr]

theorem applyFiltersVal_dict_error {kvs : List (String × JVal)} {title : String}
    {e : Unit} (hne : kvs.isEmpty = false)
    (hLne : (sortLevels ((kvs.map Prod.fst).filter isLevelKey)).isEmpty = false)
    (hr : runLevels kvs (lowerStr title)
        (sortLevels ((kvs.map Prod.fst).filter isLevelKey)) = .error e) :
    applyFiltersVal (.dict kvs) title = false := by
  simp only [applyFiltersVal, pyFalsy, hne, Bool.false_eq_true, if_false, hLne, hr]

theorem applyFiltersVal_policy (pol : List (String × List String)) (title : String)
    (hnd : (pol.map Prod.fst).Nodup) (hlk : ∀ p ∈ pol, isLevelKey p.1 = true) :
    (applyFiltersVal (policyToJVal pol) title = true ↔
      ∀ p ∈ pol, p.2 ≠ [] →
        ∃ w ∈ p.2, strIn (lowerStr w) (lowerStr title) = true) := by
  cases pol with
  | nil => simp [applyFiltersVal, policyToJVal, policyKvs, pyFalsy]
  | cons q pol' =>
      have hne : (policyKvs (q :: pol')).isEmpty = false := by
        simp [policyKvs]
      have hkeys : ((policyKvs (q :: pol')).map Prod.fst).filter isLevelKey
          = (q :: pol').map Prod.fst := by
        rw [policyKvs_keys]
        apply List.filter_eq_self.mpr
        intro a ha
        rcases List.mem_map.mp ha with ⟨p, hp, rfl⟩
        exact hlk p hp
      have hLmem : q.1 ∈ sortLevels ((q :: pol').map Prod.fst) :=
        mem_sortLevels.mpr (by simp)
      have hLne : (sortLevels ((q :: pol').map Prod.fst)).isEmpty = false := by
        cases hE : (sortLevels ((q :: pol').map Prod.fst)).isEmpty
        · rfl
        · rw [List.isEmpty_iff] at hE
          exact absurd (hE ▸ hLmem) (List.not_mem_nil _)
      have hLne' : (sortLevels (((policyKvs (q :: pol')).map Prod.fst).filter
          isLevelKey)).isEmpty = false := by
        rw [hkeys]
        exact hLne
      rw [policyToJVal]
      cases hr : runLevels (policyKvs (q :: pol')) (lowerStr title)
          (sortLevels (((policyKvs (q :: pol')).map Prod.fst).filter isLevelKey)) with
      | error e =>
          rw [hkeys] at hr
          exact absurd hr (runLevels_policy_ne_error _ _ _ e)
      | ok b =>
          rw [applyFiltersVal_dict_ok hne hLne' hr]
          rw [hkeys] at hr
          have hiff := runLevels_policy_iff (lowerStr title) hnd
            (sortLevels ((q :: pol').map Prod.fst))
          rw [hr] at hiff
          simp only [Except.ok.injEq] at hiff
          rw [hiff]
          constructor
          · intro hA p hp hne2
            exact hA p.1 (mem_sortLevels.mpr (List.mem_map.mpr ⟨p, hp, rfl⟩))
              p.2 (by simpa using hp) hne2
          · intro hR lv hlv ws hws hne2
            exact hR (lv, ws) hws hne2

/-- Claim C2: for every source URL with a well-formed policy (a mapping
of distinct `levelN` keys to keyword lists) and every title, the filter
passes the title iff, for each level with at least one keyword, at least
one of that level's keywords occurs as a case-insensitive substring of
the title; levels with an empty keyword list are vacuously satisfied; a
source with no policy entry passes every title.  In particular, for the
policy `{level1: ["a","b"], level2: ["c"]}`: `"xyz"` fails, `"a c"`
passes, `"a"` fails, `"c"` fails. -/
theorem filter_and_across_levels :
    (∀ m url title pol,
        dictGet m.url_filters url = some (policyToJVal pol) →
        (pol.map Prod.fst).Nodup →
        (∀ p ∈ pol, isLevelKey p.1 = true) →
        (apply_filters m url title = true ↔
          ∀ p ∈ pol, p.2 ≠ [] →
            ∃ w ∈ p.2, strIn (lowerStr w) (lowerStr title) = true))
    ∧ (∀ m url title, dictGet m.url_filters url = none →
        apply_filters m url title = true)
    ∧ apply_filters mEx "u" "xyz" = false
    ∧ apply_filters mEx "u" "a c" = true
    ∧ apply_filters mEx "u" "a" = false
    ∧ apply_filters mEx "u" "c" = false := by
  refine ⟨?_, ?_, by decide, by decide, by decide, by decide⟩
  · intro m url title pol hget hnd hlk
    simp only [apply_filters, hget]
    exact applyFiltersVal_policy pol title hnd hlk
  · intro m url title hget
    simp only [apply_filters, hget]

/-- Witness for C2: the characterization applied at the example policy
and the title `"a c"`. -/
theorem filter_and_across_levels_witness : apply_filters mEx "u" "a c" = true :=
  (filter_and_across_levels.1 mEx "u" "a c" polEx rfl (by decide)
    (by decide)).mpr (by decide)

/-- Claim C3 (amended): a policy value that is not a mapping passes every
title, and a level whose keyword value is not a list imposes no
constraint (the level loop skips it); but a keyword-list entry that is
not a string is not skipped: when keyword evaluation reaches it (no
earlier keyword of its level matched the title), the engine raises, the
exception is caught, and the filter returns `False`, rejecting the
title because of the malformed entry. -/
theorem malformed_policy_handling :
    (∀ m url title v, dictGet m.url_filters url = some v →
        (∀ kvs, v ≠ JVal.dict kvs) → apply_filters m url title = true)
    ∧ (∀ kvs titleLower lv rest v, dictGet kvs lv = some v →
        (∀ xs, v ≠ JVal.list xs) →
        runLevels kvs titleLower (lv :: rest) = runLevels kvs titleLower rest)
    ∧ (∀ m url title kvs lv kws, dictGet m.url_filters url = some (.dict kvs) →
        lv ∈ kvs.map Prod.fst → isLevelKey lv = true →
        dictGet kvs lv = some (.list kws) →
        anyKwMatch (lowerStr title) kws = .error () →
        apply_filters m url title = false) := by
  refine ⟨?_, ?_, ?_⟩
  · intro m url title v hget hv
    simp only [apply_filters, hget]
    cases v with
    | dict kvs => exact absurd rfl (hv kvs)
    | str s => simp [applyFiltersVal]
    | num n => simp [applyFiltersVal]
    | bool b => simp [applyFiltersVal]
    | null => simp [applyFiltersVal]
    | list xs => simp [applyFiltersVal]
  · intro kvs t lv rest v hget hv
    exact runLevels_cons_nonlist hget hv
  · intro m url title kvs lv kws hget hmem hlk hget2 herr
    have hkne : kvs.isEmpty = false := by
      cases kvs
      · simp at hmem
      · rfl
    have hLmem : lv ∈ sortLevels ((kvs.map Prod.fst).filter isLevelKey) :=
      mem_sortLevels.mpr (List.mem_filter.mpr ⟨hmem, hlk⟩)
    have hLne : (sortLevels ((kvs.map Prod.fst).filter isLevelKey)).isEmpty
        = false := by
      cases hE : (sortLevels ((kvs.map Prod.fst).filter isLevelKey)).isEmpty
      · rfl
      · rw [List.isEmpty_iff] at hE
        exact absurd (hE ▸ hLmem) (List.not_mem_nil _)
    have hnil : kws.isEmpty = false := by
      cases kws
      · simp [anyKwMatch] at herr
      · rfl
    have hnot := runLevels_not_ok_true hLmem hget2 hnil (by rw [herr]; simp)
    simp only [apply_filters, hget]
    cases hr : runLevels kvs (lowerStr title)
        (sortLevels ((kvs.map Prod.fst).filter isLevelKey)) with
    | error e => exact applyFiltersVal_dict_error hkne hLne hr
    | ok b =>
        cases b
        · exact applyFiltersVal_dict_ok hkne hLne hr
        · exact absurd hr hnot

/-- Witness for the amended C3: the exception path applied at the
concrete monitor with policy `{level1: [7]}`. -/
theorem malformed_policy_handling_witness : apply_filters mBadKw "u" "zz" = false :=
  malformed_policy_handling.2.2 mBadKw "u" "zz"
    [("level1", JVal.list [JVal.num 7])] "level1" [JVal.num 7]
    rfl (by decide) (by decide) rfl rfl

theorem extractLoop_cons_invalid {m : Monitor} {src : String} {a : Anchor}
    {rest : List Anchor} {processed : List String}
    (h : validHref a.href = false) :
    extractLoop m src (a :: rest) processed = extractLoop m src rest processed := by
  simp only [extractLoop, h, Bool.false_eq_true, if_false]

theorem extractLoop_cons_seen {m : Monitor} {src : String} {a : Anchor}
    {rest : List Anchor} {processed : List String}
    (hv : validHref a.href = true) (hmem : fullUrl a.href ∈ processed) :
    extractLoop m src (a :: rest) processed = extractLoop m src rest processed := by
  simp only [extractLoop, hv, if_true]
  rw [if_pos hmem]

theorem extractLoop_cons_noTitle {m : Monitor} {src : String} {a : Anchor}
    {rest : List Anchor} {processed : List String}
    (hv : validHref a.href = true) (hmem : fullUrl a.href ∉ processed)
    (ht : a.titleSpan = none) :
    extractLoop m src (a :: rest) processed
      = extractLoop m src rest (fullUrl a.href :: processed) := by
  simp only [extractLoop, hv, if_true, ht]
  rw [if_neg hmem]

theorem extractLoop_cons_noPrice {m : Monitor} {src : String} {a : Anchor}
    {rest : List Anchor} {processed : List String} {t : String}
    (hv : validHref a.href = true) (hmem : fullUrl a.href ∉ processed)
    (ht : a.titleSpan = some t) (hp : a.priceSpan = none) :
    extractLoop m src (a :: rest) processed
      = extractLoop m src rest (fullUrl a.href :: processed) := by
  simp only [extractLoop, hv, if_true, ht, hp]
  rw [if_neg hmem]

theorem extractLoop_cons_gateFail {m : Monitor} {src : String} {a : Anchor}
    {rest : List Anchor} {processed : List String} {t p : String}
    (hv : validHref a.href = true) (hmem : fullUrl a.href ∉ processed)
    (ht : a.titleSpan = some t) (hp : a.priceSpan = some p)
    (hg : priceGate m.currency p = false) :
    extractLoop m src (a :: rest) processed
      = extractLoop m src rest (fullUrl a.href :: processed) := by
  simp only [extractLoop, hv, if_true, ht, hp, hg, Bool.false_eq_true, if_false]
  rw [if_neg hmem]

theorem extractLoop_cons_filterFail {m : Monitor} {src : String} {a : Anchor}
    {rest : List Anchor} {processed : List String} {t p : String}
    (hv : validHref a.href = true) (hmem : fullUrl a.href ∉ processed)
    (ht : a.titleSpan = some t) (hp : a.priceSpan = some p)
    (hg : priceGate m.currency p = true) (hf : apply_filters m src t = false) :
    extractLoop m src (a :: rest) processed
      = extractLoop m src rest (fullUrl a.href :: processed) := by
  simp only [extractLoop, hv, if_true, ht, hp, hg, hf, Bool.false_eq_true, if_false]
  rw [if_neg hmem]

theorem extractLoop_cons_accept {m : Monitor} {src : String} {a : Anchor}
    {rest : List Anchor} {processed : List String} {t p : String}
    (hv : validHref a.href = true) (hmem : fullUrl a.href ∉ processed)
    (ht : a.titleSpan = some t) (hp : a.priceSpan = some p)
    (hg : priceGate m.currency p = true) (hf : apply_filters m src t = true) :
    extractLoop m src (a :: rest) processed
      = (m.hashFn (fullUrl a.href), t, p, fullUrl a.href)
          :: extractLoop m src rest (fullUrl a.href :: processed) := by
  simp only [extractLoop, hv, if_true, ht, hp, hg, hf]
  rw [if_neg hmem]

theorem canonOf_invalid {a : Anchor} (h : validHref a.href = false) :
    canonOf a = none := by
  simp [canonOf, h]

theorem canonOf_valid {a : Anchor} (h : validHref a.href = true) :
    canonOf a = some (fullUrl a.href) := by
  simp [canonOf, h]

theorem canonOf_some {a : Anchor} {u : String} (h : canonOf a = some u) :
    validHref a.href = true ∧ fullUrl a.href = u := by
  cases hv : validHref a.href
  · rw [canonOf_invalid hv] at h
    cases h
  · rw [canonOf_valid hv] at h
    injection h with h
    exact ⟨rfl, h⟩

theorem FirstAccepted_cons {m : Monitor} {src : String} {a0 : Anchor}
    {as : List Anchor} {i t p u : String} (hne : canonOf a0 ≠ some u) :
    FirstAccepted m src (a0 :: as) i t p u ↔ FirstAccepted m src as i t p u := by
  constructor
  · rintro ⟨pre, a, post, heq, hca, hpre, hrest⟩
    cases pre with
    | nil =>
        injection heq with h1 h2
        subst h1
        exact absurd hca hne
    | cons b pre' =>
        injection heq with h1 h2
        subst h1
        exact ⟨pre', a, post, h2, hca,
          fun c hc => hpre c (List.mem_cons_of_mem _ hc), hrest⟩
  · rintro ⟨pre, a, post, heq, hca, hpre, hrest⟩
    refine ⟨a0 :: pre, a, post, by rw [heq]; rfl, hca, ?_, hrest⟩
    intro c hc
    rcases List.mem_cons.mp hc with rfl | hc'
    · exact hne
    · exact hpre c hc'

theorem FirstAccepted_head {m : Monitor} {src : String} {a0 : Anchor}
    {as : List Anchor} {i t p u : String} (hca : canonOf a0 = some u)
    (ht : a0.titleSpan = some t) (hp : a0.priceSpan = some p)
    (hg : priceGate m.currency p = true) (hf : apply_filters m src t = true)
    (hi : i = m.hashFn u) :
    FirstAccepted m src (a0 :: as) i t p u :=
  ⟨[], a0, as, rfl, hca, fun b hb => absurd hb (List.not_mem_nil b), ht, hp, hg, hf, hi⟩

theorem extractLoop_mem_decomp {m : Monitor} {src : String} :
    ∀ (as : List Anchor) (processed : List String) (i t p u : String),
      (i, t, p, u) ∈ extractLoop m src as processed →
      u ∉ processed ∧ FirstAccepted m src as i t p u := by
  intro as
  induction as with
  | nil =>
      intro processed i t p u h
      simp [extractLoop] at h
  | cons a0 rest ih =>
      intro processed i t p u h
      cases hv : validHref a0.href
      · rw [extractLoop_cons_invalid hv] at h
        obtain ⟨hnp, hFA⟩ := ih processed i t p u h
        refine ⟨hnp, (FirstAccepted_cons ?_).mpr hFA⟩
        simp [canonOf_invalid hv]
      · by_cases hmem : fullUrl a0.href ∈ processed
        · rw [extractLoop_cons_seen hv hmem] at h
          obtain ⟨hnp, hFA⟩ := ih processed i t p u h
          refine ⟨hnp, (FirstAccepted_cons ?_).mpr hFA⟩
          rw [canonOf_valid hv]
          intro hc
          injection hc with hc
          exact hnp (hc ▸ hmem)
        · have step : (i, t, p, u) ∈ extractLoop m src rest
              (fullUrl a0.href :: processed) →
              u ∉ processed ∧ FirstAccepted m src (a0 :: rest) i t p u := by
            intro h'
            obtain ⟨hnp', hFA⟩ := ih _ i t p u h'
            have hnp : u ∉ processed := fun hc => hnp' (List.mem_cons_of_mem _ hc)
            have hne : fullUrl a0.href ≠ u := by
              intro hc
              exact hnp' (hc ▸ List.mem_cons_self _ _)
            refine ⟨hnp, (FirstAccepted_cons ?_).mpr hFA⟩
            rw [canonOf_valid hv]
            intro hc
            injection hc with hc
            exact hne hc
          rcases ht0 : a0.titleSpan with _ | t0
          · rw [extractLoop_cons_noTitle hv hmem ht0] at h
            exact step h
          · rcases hp0 : a0.priceSpan with _ | p0
            · rw [extractLoop_cons_noPrice hv hmem ht0 hp0] at h
              exact step h
            · cases hg0 : priceGate m.currency p0
              · rw [extractLoop_cons_gateFail hv hmem ht0 hp0 hg0] at h
                exact step h
              · cases hf0 : apply_filters m src t0
                · rw [extractLoop_cons_filterFail hv hmem ht0 hp0 hg0 hf0] at h
                  exact step h
                · rw [extractLoop_cons_accept hv hmem ht0 hp0 hg0 hf0] at h
                  rcases List.mem_cons.mp h with hhd | htl
                  · simp only [Prod.mk.injEq] at hhd
                    obtain ⟨hi, ht', hp', hu⟩ := hhd
                    subst ht'
                    subst hp'
                    subst hu
                    exact ⟨hmem,
                      FirstAccepted_head (canonOf_valid hv) ht0 hp0 hg0 hf0 hi⟩
                  · exact step htl

theorem extractLoop_mem_of_FA {m : Monitor} {src : String} :
    ∀ (pre : List Anchor) (a : Anchor) (post : List Anchor)
      (processed : List String) (i t p u : String),
      u ∉ processed →
      canonOf a = some u → (∀ b ∈ pre, canonOf b ≠ some u) →
      a.titleSpan = some t → a.priceSpan = some p →
      priceGate m.currency p = true → apply_filters m src t = true →
      i = m.hashFn u →
      (i, t, p, u) ∈ extractLoop m src (pre ++ a :: post) processed := by
  intro pre
  induction pre with
  | nil =>
      intro a post processed i t p u hnp hca hpre ht hp hg hf hi
      obtain ⟨hv, hfu⟩ := canonOf_some hca
      subst hfu
      subst hi
      rw [List.nil_append, extractLoop_cons_accept hv hnp ht hp hg hf]
      exact List.mem_cons_self _ _
  | cons b pre' ih =>
      intro a post processed i t p u hnp hca hpre ht hp hg hf hi
      have hbne : canonOf b ≠ some u := hpre b (List.mem_cons_self _ _)
      have hpre' : ∀ c ∈ pre', canonOf c ≠ some u :=
        fun c hc => hpre c (List.mem_cons_of_mem _ hc)
      rw [List.cons_append]
      cases hv : validHref b.href
      · rw [extractLoop_cons_invalid hv]
        exact ih a post processed i t p u hnp hca hpre' ht hp hg hf hi
      · by_cases hmem : fullUrl b.href ∈ processed
        · rw [extractLoop_cons_seen hv hmem]
          exact ih a post processed i t p u hnp hca hpre' ht hp hg hf hi
        · have hune : u ∉ (fullUrl b.href :: processed) := by
            intro hc
            rcases List.mem_cons.mp hc with rfl | hc'
            · exact hbne (canonOf_valid hv)
            · exact hnp hc'
          rcases ht0 : b.titleSpan with _ | t0
          · rw [extractLoop_cons_noTitle hv hmem ht0]
            exact ih a post _ i t p u hune hca hpre' ht hp hg hf hi
          · rcases hp0 : b.priceSpan with _ | p0
            · rw [extractLoop_cons_noPrice hv hmem ht0 hp0]
              exact ih a post _ i t p u hune hca hpre' ht hp hg hf hi
            · cases hg0 : priceGate m.currency p0
              · rw [extractLoop_cons_gateFail hv hmem ht0 hp0 hg0]
                exact ih a post _ i t p u hune hca hpre' ht hp hg hf hi
              · cases hf0 : apply_filters m src t0
                · rw [extractLoop_cons_filterFail hv hmem ht0 hp0 hg0 hf0]
                  exact ih a post _ i t p u hune hca hpre' ht hp hg hf hi
                · rw [extractLoop_cons_accept hv hmem ht0 hp0 hg0 hf0]
                  exact List.mem_cons_of_mem _
                    (ih a post _ i t p u hune hca hpre' ht hp hg hf hi)

/-- Claim C4 counterexample: a candidate with a found title and price
whose price passes the currency gate is nevertheless dropped, because
extraction also applies the source's filter policy to the title. -/
theorem extract_drops_filtered_candidate_cex :
    extract_ad_details mGate (.parsed [aGate]) "S" = []
    ∧ validHref aGate.href = true
    ∧ aGate.titleSpan = some "xyz"
    ∧ aGate.priceSpan = some "$50"
    ∧ priceGate mGate.currency "$50" = true :=
  ⟨by decide, by decide, rfl, rfl, by decide⟩

/-- Claim C4 (amended): for every markup input, extraction yields exactly
those candidates (first anchor in document order per canonical listing
URL) for which a title node and a price node are found, the price text
starts with the configured currency symbol or contains "free"
case-insensitively, AND the title passes the source's filter policy; all
other candidates are silently dropped, extraction never raises, and a
parse failure of the whole document yields the empty sequence.  The gate
examples: "$50" with currency "$" passes, "€50" with currency "$" fails,
"Free" always passes. -/
theorem extract_gate_characterization :
    (∀ m src as i t p u,
      ((i, t, p, u) ∈ extract_ad_details m (.parsed as) src ↔
        FirstAccepted m src as i t p u))
    ∧ (∀ m src, extract_ad_details m .unparseable src = [])
    ∧ priceGate "$" "$50" = true
    ∧ priceGate "$" "€50" = false
    ∧ (∀ currency, priceGate currency "Free" = true) := by
  refine ⟨?_, fun m src => rfl, by decide, by decide, ?_⟩
  · intro m src as i t p u
    constructor
    · intro h
      exact (extractLoop_mem_decomp as [] i t p u h).2
    · rintro ⟨pre, a, post, heq, hca, hpre, ht, hp, hg, hf, hi⟩
      subst heq
      exact extractLoop_mem_of_FA pre a post [] i t p u
        (List.not_mem_nil u) hca hpre ht hp hg hf hi
  · intro currency
    have hfree : strIn "free" (lowerStr "Free") = true := by decide
    simp [priceGate, hfree]

/-- Witness for the amended C4: the characterization applied to a
two-anchor page produces the first listing's record. -/
theorem extract_gate_characterization_witness :
    ("https://facebook.com/marketplace/item/1", "t1", "$1",
      "https://facebook.com/marketplace/item/1")
      ∈ extract_ad_details mPlain (.parsed [aOne, aTwo]) "S" :=
  (extract_gate_characterization.1 mPlain "S" [aOne, aTwo] _ _ _ _).mpr
    ⟨[], aOne, [aTwo], rfl, by decide,
      fun b hb => absurd hb (List.not_mem_nil b), rfl, rfl, by decide, by decide,
      by decide⟩

theorem first_with_canon_unique {u : String} :
    ∀ (pre : List Anchor) (a : Anchor) (post pre' : List Anchor) (b : Anchor)
      (post' : List Anchor),
      pre ++ a :: post = pre' ++ b :: post' →
      canonOf a = some u → canonOf b = some u →
      (∀ c ∈ pre, canonOf c ≠ some u) → (∀ c ∈ pre', canonOf c ≠ some u) →
      a = b := by
  intro pre
  induction pre with
  | nil =>
      intro a post pre' b post' heq ha hb hpre hpre'
      cases pre' with
      | nil =>
          injection heq with h1 h2
      | cons c pre'' =>
          injection heq with h1 h2
          subst h1
          exact absurd ha (hpre' a (List.mem_cons_self _ _))
  | cons c pre'' ih =>
      intro a post pre' b post' heq ha hb hpre hpre'
      cases pre' with
      | nil =>
          injection heq with h1 h2
          rw [← h1] at hb
          exact absurd hb (hpre c (List.mem_cons_self _ _))
      | cons d pre''' =>
          injection heq with h1 h2
          exact ih a post pre''' b post' h2 ha hb
            (fun x hx => hpre x (List.mem_cons_of_mem _ hx))
            (fun x hx => hpre' x (List.mem_cons_of_mem _ hx))

/-- Claim C10: page-local deduplication keys on the canonical URL before
the title/price acceptance check: only the first anchor in document
order for a given canonical URL is ever considered, so when that first
anchor lacks a title or price node or fails the currency gate, no record
is produced for that URL, even if a later anchor with the same canonical
URL carries a valid title and price. -/
theorem page_dedup_first_anchor_wins :
    ∀ (m : Monitor) (src : String) (pre : List Anchor) (a : Anchor)
      (post : List Anchor) (u : String),
      canonOf a = some u →
      (∀ b ∈ pre, canonOf b ≠ some u) →
      (a.titleSpan = none ∨ a.priceSpan = none ∨
        (∀ t' p', a.titleSpan = some t' → a.priceSpan = some p' →
          priceGate m.currency p' = false)) →
      ∀ i t p, (i, t, p, u) ∉ extract_ad_details m (.parsed (pre ++ a :: post)) src := by
  intro m src pre a post u hca hpre hrej i t p hmem
  obtain ⟨-, pre', b, post', heq, hcb, hpre', ht, hp, hg, -, -⟩ :=
    extractLoop_mem_decomp (pre ++ a :: post) [] i t p u hmem
  have hab : a = b := first_with_canon_unique pre a post pre' b post' heq hca hcb hpre hpre'
  subst hab
  rcases hrej with h | h | h
  · rw [h] at ht
    cases ht
  · rw [h] at hp
    cases hp
  · rw [h t p ht hp] at hg
    cases hg

/-- Witness for C10: the first anchor for the canonical URL lacks a title
span, so the fully valid later anchor for the same URL yields nothing. -/
theorem page_dedup_first_anchor_wins_witness :
    ("https://facebook.com/marketplace/item/3", "t3", "$3",
      "https://facebook.com/marketplace/item/3")
      ∉ extract_ad_details mPlain (.parsed [aDupFirst, aDupSecond]) "S" :=
  page_dedup_first_anchor_wins mPlain "S" [] aDupFirst [aDupSecond]
    "https://facebook.com/marketplace/item/3" (by decide)
    (fun b hb => absurd hb (List.not_mem_nil b)) (.inl rfl)
    "https://facebook.com/marketplace/item/3" "t3" "$3"

theorem processAd_skip {m : Monitor} {faults : String → AdFaults} {now : Nat}
    {r : AdRec} {s : PassState} (h : r.1 ∈ s.addedIds) :
    processAd m faults now r s = .ok s := by
  simp [processAd, h]

theorem processAd_insert_ok {m : Monitor} {faults : String → AdFaults} {now : Nat}
    {r : AdRec} {s : PassState} (h1 : r.1 ∉ s.addedIds)
    (h2 : dbFind s.db r.1 = none) (h3 : (faults r.1).insert = .ok) :
    processAd m faults now r s
      = .ok { db := s.db ++ [newEntry r now]
              rssItems := mkRSSItem m (newEntry r now) :: s.rssItems
              addedIds := r.1 :: s.addedIds
              newCount := s.newCount + 1 } := by
  simp [processAd, h1, h2, h3]

theorem processAd_insert_dbErr {m : Monitor} {faults : String → AdFaults} {now : Nat}
    {r : AdRec} {s : PassState} (h1 : r.1 ∉ s.addedIds)
    (h2 : dbFind s.db r.1 = none) (h3 : (faults r.1).insert = .dbErr) :
    processAd m faults now r s = .ok s := by
  simp [processAd, h1, h2, h3]

theorem processAd_race_touch {m : Monitor} {faults : String → AdFaults} {now : Nat}
    {r : AdRec} {s : PassState} (h1 : r.1 ∉ s.addedIds)
    (h2 : dbFind s.db r.1 = none) (h3 : (faults r.1).insert = .integrityErr)
    (h4 : (faults r.1).update = true) :
    processAd m faults now r s = .ok { s with db := dbTouch s.db r.1 now } := by
  simp [processAd, h1, h2, h3, h4]

theorem processAd_race_err {m : Monitor} {faults : String → AdFaults} {now : Nat}
    {r : AdRec} {s : PassState} (h1 : r.1 ∉ s.addedIds)
    (h2 : dbFind s.db r.1 = none) (h3 : (faults r.1).insert = .integrityErr)
    (h4 : (faults r.1).update = false) :
    processAd m faults now r s = .error s := by
  simp [processAd, h1, h2, h3, h4]

theorem processAd_touch {m : Monitor} {faults : String → AdFaults} {now : Nat}
    {r : AdRec} {s : PassState} {e : Entry} (h1 : r.1 ∉ s.addedIds)
    (h2 : dbFind s.db r.1 = some e) (h4 : (faults r.1).update = true) :
    processAd m faults now r s = .ok { s with db := dbTouch s.db r.1 now } := by
  simp [processAd, h1, h2, h4]

theorem processAd_touch_err {m : Monitor} {faults : String → AdFaults} {now : Nat}
    {r : AdRec} {s : PassState} {e : Entry} (h1 : r.1 ∉ s.addedIds)
    (h2 : dbFind s.db r.1 = some e) (h4 : (faults r.1).update = false) :
    processAd m faults now r s = .error s := by
  simp [processAd, h1, h2, h4]

theorem processAds_cons_ok {m : Monitor} {faults : String → AdFaults} {now : Nat}
    {r : AdRec} {rest : List AdRec} {s s' : PassState}
    (h : processAd m faults now r s = .ok s') :
    processAds m faults now (r :: rest) s = processAds m faults now rest s' := by
  simp only [processAds, h]

theorem processAds_cons_err {m : Monitor} {faults : String → AdFaults} {now : Nat}
    {r : AdRec} {rest : List AdRec} {s s' : PassState}
    (h : processAd m faults now r s = .error s') :
    processAds m faults now (r :: rest) s = .error s' := by
  simp only [processAds, h]

theorem processUrl_noFetch {m : Monitor} {faults : String → AdFaults}
    {fetch : String → Option Markup} {now : Nat} {url : String} {s : PassState}
    (h : fetch url = none) :
    processUrl m faults fetch now url s = s := by
  simp [processUrl, h]

theorem processUrl_run_ok {m : Monitor} {faults : String → AdFaults}
    {fetch : String → Option Markup} {now : Nat} {url : String} {s s' : PassState}
    {mk : Markup} (h : fetch url = some mk)
    (h2 : processAds m faults now (extract_ad_details m mk url) s = .ok s') :
    processUrl m faults fetch now url s = s' := by
  simp [processUrl, h, h2]

theorem processUrl_run_err {m : Monitor} {faults : String → AdFaults}
    {fetch : String → Option Markup} {now : Nat} {url : String} {s s' : PassState}
    {mk : Markup} (h : fetch url = some mk)
    (h2 : processAds m faults now (extract_ad_details m mk url) s = .error s') :
    processUrl m faults fetch now url s = s' := by
  simp [processUrl, h, h2]

theorem dbFind_none_iff {db : DB} {id : String} :
    dbFind db id = none ↔ id ∉ adIds db := by
  rw [dbFind, List.find?_eq_none]
  constructor
  · intro h hc
    rcases List.mem_map.mp hc with ⟨e, he, hid⟩
    exact h e he (by simp [hid])
  · intro h e he
    simp only [decide_eq_true_eq]
    intro hc
    exact h (List.mem_map.mpr ⟨e, he, hc⟩)

theorem adIds_dbTouch (db : DB) (id : String) (now : Nat) :
    adIds (dbTouch db id now) = adIds db := by
  rw [adIds, dbTouch, List.map_map, adIds]
  apply List.map_congr_left
  intro e _
  simp only [Function.comp]
  split <;> rfl

theorem dbTouch_traceable {db : DB} {id : String} {now : Nat} :
    ∀ e ∈ dbTouch db id now, ∃ e0 ∈ db, Traceable now e e0 := by
  intro e he
  rcases List.mem_map.mp he with ⟨e0, he0, heq⟩
  refine ⟨e0, he0, ?_⟩
  by_cases h : e0.ad_id = id
  · rw [if_pos h] at heq
    subst heq
    exact ⟨rfl, rfl, rfl, rfl, rfl, .inr rfl⟩
  · rw [if_neg h] at heq
    subst heq
    exact ⟨rfl, rfl, rfl, rfl, rfl, .inl rfl⟩

theorem Traceable_refl (now : Nat) (e : Entry) : Traceable now e e :=
  ⟨rfl, rfl, rfl, rfl, rfl, .inl rfl⟩

theorem Traceable_trans {now : Nat} {e1 e2 e3 : Entry}
    (h1 : Traceable now e1 e2) (h2 : Traceable now e2 e3) :
    Traceable now e1 e3 := by
  obtain ⟨a1, b1, c1, d1, f1, g1⟩ := h1
  obtain ⟨a2, b2, c2, d2, f2, g2⟩ := h2
  refine ⟨a1.trans a2, b1.trans b2, c1.trans c2, d1.trans d2, f1.trans f2, ?_⟩
  rcases g1 with g1 | g1
  · rcases g2 with g2 | g2
    · exact .inl (g1.trans g2)
    · exact .inr (g1.trans g2)
  · exact .inr g1

theorem FreshFrom_of_traceable {now : Nat} {r : AdRec} {e e' : Entry}
    (h : Traceable now e e') (hf : FreshFrom now r e') : FreshFrom now r e := by
  obtain ⟨a1, b1, c1, d1, f1, g1⟩ := h
  obtain ⟨a2, b2, c2, d2, f2, g2⟩ := hf
  refine ⟨a1.trans a2, c1.trans b2, d1.trans c2, b1.trans d2, f1.trans f2, ?_⟩
  rcases g1 with g1 | g1
  · exact g1.trans g2
  · exact g1

theorem dbTouch_length (db : DB) (id : String) (now : Nat) :
    (dbTouch db id now).length = db.length := by
  simp [dbTouch]

theorem dbTouch_zip (db : DB) (id : String) (now : Nat) :
    ∀ q ∈ (dbTouch db id now).zip db,
      q.1.ad_id = q.2.ad_id ∧ q.1.url = q.2.url ∧ q.1.title = q.2.title
      ∧ q.1.price = q.2.price ∧ q.1.first_seen = q.2.first_seen
      ∧ (if q.2.ad_id = id then q.1.last_checked = now
         else q.1.last_checked = q.2.last_checked) := by
  induction db with
  | nil => intro q hq; simp [dbTouch] at hq
  | cons e rest ih =>
      intro q hq
      simp only [dbTouch, List.map_cons, List.zip_cons_cons, List.mem_cons] at hq
      rcases hq with rfl | hq
      · by_cases h : e.ad_id = id
        · simp [h]
        · simp [h]
      · exact ih q hq

theorem dbTouch_cons (e : Entry) (rest : DB) (id : String) (now : Nat) :
    dbTouch (e :: rest) id now
      = (if e.ad_id = id then { e with last_checked := now } else e)
          :: dbTouch rest id now := rfl

theorem dbTouch_count (db : DB) (id : String) (now : Nat) :
    ((dbTouch db id now).filter (fun x => decide (x.ad_id = id))).length
      = (db.filter (fun x => decide (x.ad_id = id))).length := by
  induction db with
  | nil => rfl
  | cons e rest ih =>
      rw [dbTouch_cons]
      by_cases h : e.ad_id = id
      · rw [if_pos h]
        simp [List.filter_cons, h, ih]
      · rw [if_neg h]
        simp [List.filter_cons, h, ih]

/-- Claim C1: re-sighting a listing already present in the ledger leaves
exactly one row for that identity and changes only its `last_checked`
field: `first_seen`, `title`, `price` and the stored `url` are unchanged
by the update, the feed items and pass bookkeeping are untouched, and no
row is added or removed. -/
theorem resight_touches_only_last_checked :
    ∀ (m : Monitor) (faults : String → AdFaults) (now : Nat) (r : AdRec)
      (s : PassState) (e : Entry),
      (faults r.1).update = true →
      r.1 ∉ s.addedIds →
      dbFind s.db r.1 = some e →
      ∃ s', processAd m faults now r s = .ok s'
        ∧ s'.db = dbTouch s.db r.1 now
        ∧ s'.rssItems = s.rssItems
        ∧ s'.addedIds = s.addedIds
        ∧ s'.newCount = s.newCount
        ∧ s'.db.length = s.db.length
        ∧ (∀ q ∈ s'.db.zip s.db,
            q.1.ad_id = q.2.ad_id ∧ q.1.url = q.2.url ∧ q.1.title = q.2.title
            ∧ q.1.price = q.2.price ∧ q.1.first_seen = q.2.first_seen
            ∧ (if q.2.ad_id = r.1 then q.1.last_checked = now
               else q.1.last_checked = q.2.last_checked))
        ∧ ((s.db.filter (fun x => decide (x.ad_id = r.1))).length = 1 →
            (s'.db.filter (fun x => decide (x.ad_id = r.1))).length = 1) := by
  intro m faults now r s e hupd hadd hfind
  refine ⟨{ s with db := dbTouch s.db r.1 now },
    processAd_touch hadd hfind hupd, rfl, rfl, rfl, rfl,
    dbTouch_length s.db r.1 now, dbTouch_zip s.db r.1 now, ?_⟩
  intro h1
  rw [dbTouch_count s.db r.1 now]
  exact h1

/-- Witness for C1 at a concrete one-row ledger. -/
theorem resight_touches_only_last_checked_witness :
    processAd mPlain noFaults 30 rResight sResight
      = .ok { sResight with db := dbTouch dbResight "hx" 30 } := by
  obtain ⟨s', hok, hdb, hrss, hadd, hcnt, -⟩ :=
    resight_touches_only_last_checked mPlain noFaults 30 rResight sResight
      { url := "https://facebook.com/marketplace/item/x", ad_id := "hx",
        title := "tx", price := "$4", first_seen := 11, last_checked := 20 }
      rfl (by decide) (by decide)
  have hs : s' = { sResight with db := dbTouch dbResight "hx" 30 } := by
    cases s'
    simp only [PassState.mk.injEq]
    exact ⟨hdb, hrss, hadd, hcnt⟩
  rw [← hs]
  exact hok

/-- Claim C6 counterexample: a store error on the `last_checked` UPDATE
of an existing listing aborts the remaining listings of the same source:
the second, fault-free listing of the page is not stored, although it is
stored when no fault occurs. -/
theorem per_listing_containment_cex :
    (processUrl mPlain faultUpdOne fetchTwo 9 "S" sOne).db = dbOne
    ∧ (processUrl mPlain noFaults fetchTwo 9 "S" sOne).db
      = [{ url := urlOne, ad_id := urlOne, title := "t1", price := "$1",
           first_seen := 5, last_checked := 9 },
         { url := urlTwo, ad_id := urlTwo, title := "t2", price := "$2",
           first_seen := 9, last_checked := 9 }] :=
  ⟨by decide, by decide⟩

/-- Claim C6 (amended): a store error on the INSERT of a new listing is
caught per-listing — only that listing's write is rolled back and the
remaining listings of the source are still processed; a store error on
the bare `last_checked` UPDATE (existing listing, or the integrity-race
fallback) escapes to the per-source handler and abandons the remaining
listings of that source; the pass always continues with the next
source. -/
theorem per_listing_containment :
    (∀ m faults now (r : AdRec) rest s,
        r.1 ∉ s.addedIds → dbFind s.db r.1 = none →
        (faults r.1).insert = .dbErr →
        processAds m faults now (r :: rest) s = processAds m faults now rest s)
    ∧ (∀ m faults now (r : AdRec) rest s e,
        r.1 ∉ s.addedIds → dbFind s.db r.1 = some e →
        (faults r.1).update = false →
        processAds m faults now (r :: rest) s = .error s)
    ∧ (∀ m faults fetch now url us s,
        processUrls m faults fetch now (url :: us) s
          = processUrls m faults fetch now us
              (processUrl m faults fetch now url s)) := by
  refine ⟨?_, ?_, fun m faults fetch now url us s => rfl⟩
  · intro m faults now r rest s h1 h2 h3
    rw [processAds_cons_ok (processAd_insert_dbErr h1 h2 h3)]
  · intro m faults now r rest s e h1 h2 h4
    rw [processAds_cons_err (processAd_touch_err h1 h2 h4)]

/-- Witness for the amended C6: a failed INSERT leaves the state alone
and processing continues with no remaining ads. -/
theorem per_listing_containment_witness :
    processAds mPlain (fun _ => { insert := .dbErr, update := true }) 9
      [("a", "t", "$1", "a")] sEmpty = .ok sEmpty := by
  rw [per_listing_containment.1 mPlain _ 9 ("a", "t", "$1", "a") [] sEmpty
    (by decide) (by decide) rfl]
  rfl

theorem nodup_append_singleton {l : List String} {a : String}
    (h : l.Nodup) (ha : a ∉ l) : (l ++ [a]).Nodup := by
  rw [List.nodup_append]
  refine ⟨h, List.nodup_singleton a, ?_⟩
  intro x hx hxa
  rw [List.mem_singleton] at hxa
  subst hxa
  exact ha hx

theorem adIds_append_newEntry (db : DB) (r : AdRec) (now : Nat) :
    adIds (db ++ [newEntry r now]) = adIds db ++ [r.1] := by
  simp [adIds, newEntry]

theorem processAd_effects {m : Monitor} {faults : String → AdFaults} {now : Nat}
    {r : AdRec} {s s' : PassState}
    (h : processAd m faults now r s = .ok s'
      ∨ processAd m faults now r s = .error s') :
    (∀ e ∈ s'.db, (∃ e0 ∈ s.db, Traceable now e e0) ∨ FreshFrom now r e)
    ∧ ((adIds s.db).Nodup → (adIds s'.db).Nodup) := by
  have same : s' = s →
      (∀ e ∈ s'.db, (∃ e0 ∈ s.db, Traceable now e e0) ∨ FreshFrom now r e)
      ∧ ((adIds s.db).Nodup → (adIds s'.db).Nodup) := by
    rintro rfl
    exact ⟨fun e he => .inl ⟨e, he, Traceable_refl now e⟩, id⟩
  have touch : s' = { s with db := dbTouch s.db r.1 now } →
      (∀ e ∈ s'.db, (∃ e0 ∈ s.db, Traceable now e e0) ∨ FreshFrom now r e)
      ∧ ((adIds s.db).Nodup → (adIds s'.db).Nodup) := by
    rintro rfl
    refine ⟨fun e he => .inl (dbTouch_traceable e he), ?_⟩
    intro hn
    simpa [adIds_dbTouch] using hn
  by_cases hmem : r.1 ∈ s.addedIds
  · rcases h with h | h
    · rw [processAd_skip hmem] at h
      injection h with h
      exact same h.symm
    · rw [processAd_skip hmem] at h
      exact Except.noConfusion h
  · rcases hfind : dbFind s.db r.1 with _ | e0
    · rcases hik : (faults r.1).insert with _ | _ | _
      · rcases h with h | h
        · rw [processAd_insert_ok hmem hfind hik] at h
          injection h with h
          subst h
          constructor
          · intro e he
            rcases List.mem_append.mp he with he | he
            · exact .inl ⟨e, he, Traceable_refl now e⟩
            · rw [List.mem_singleton] at he
              subst he
              exact .inr ⟨rfl, rfl, rfl, rfl, rfl, rfl⟩
          · intro hn
            rw [adIds_append_newEntry]
            exact nodup_append_singleton hn (dbFind_none_iff.mp hfind)
        · rw [processAd_insert_ok hmem hfind hik] at h
          exact Except.noConfusion h
      · cases hupd : (faults r.1).update
        · rcases h with h | h
          · rw [processAd_race_err hmem hfind hik hupd] at h
            exact Except.noConfusion h
          · rw [processAd_race_err hmem hfind hik hupd] at h
            injection h with h
            exact same h.symm
        · rcases h with h | h
          · rw [processAd_race_touch hmem hfind hik hupd] at h
            injection h with h
            exact touch h.symm
          · rw [processAd_race_touch hmem hfind hik hupd] at h
            exact Except.noConfusion h
      · rcases h with h | h
        · rw [processAd_insert_dbErr hmem hfind hik] at h
          injection h with h
          exact same h.symm
        · rw [processAd_insert_dbErr hmem hfind hik] at h
          exact Except.noConfusion h
    · cases hupd : (faults r.1).update
      · rcases h with h | h
        · rw [processAd_touch_err hmem hfind hupd] at h
          exact Except.noConfusion h
        · rw [processAd_touch_err hmem hfind hupd] at h
          injection h with h
          exact same h.symm
      · rcases h with h | h
        · rw [processAd_touch hmem hfind hupd] at h
          injection h with h
          exact touch h.symm
        · rw [processAd_touch hmem hfind hupd] at h
          exact Except.noConfusion h

theorem processAds_effects {m : Monitor} {faults : String → AdFaults} {now : Nat} :
    ∀ (ads : List AdRec) (s s' : PassState),
      (processAds m faults now ads s = .ok s'
        ∨ processAds m faults now ads s = .error s') →
      (∀ e ∈ s'.db,
        (∃ e0 ∈ s.db, Traceable now e e0) ∨ ∃ r ∈ ads, FreshFrom now r e)
      ∧ ((adIds s.db).Nodup → (adIds s'.db).Nodup) := by
  intro ads
  induction ads with
  | nil =>
      intro s s' h
      rcases h with h | h
      · injection h with h
        subst h
        exact ⟨fun e he => .inl ⟨e, he, Traceable_refl now e⟩, id⟩
      · exact Except.noConfusion h
  | cons r rest ih =>
      intro s s' h
      cases hpa : processAd m faults now r s with
      | ok s1 =>
          rw [processAds_cons_ok hpa] at h
          obtain ⟨hprov1, hnd1⟩ := processAd_effects (.inl hpa)
          obtain ⟨hprov2, hnd2⟩ := ih s1 s' h
          constructor
          · intro e he
            rcases hprov2 e he with ⟨e1, he1, htr⟩ | ⟨r', hr', hfr⟩
            · rcases hprov1 e1 he1 with ⟨e0, he0, htr0⟩ | hfr0
              · exact .inl ⟨e0, he0, Traceable_trans htr htr0⟩
              · exact .inr ⟨r, List.mem_cons_self _ _, FreshFrom_of_traceable htr hfr0⟩
            · exact .inr ⟨r', List.mem_cons_of_mem _ hr', hfr⟩
          · exact fun hn => hnd2 (hnd1 hn)
      | error s1 =>
          rw [processAds_cons_err hpa] at h
          have hs : s' = s1 := by
            rcases h with h | h
            · exact Except.noConfusion h
            · injection h with h
              exact h.symm
          subst hs
          obtain ⟨hprov1, hnd1⟩ := processAd_effects (.inr hpa)
          constructor
          · intro e he
            rcases hprov1 e he with h0 | h0
            · exact .inl h0
            · exact .inr ⟨r, List.mem_cons_self _ _, h0⟩
          · exact hnd1

theorem processUrl_effects {m : Monitor} {faults : String → AdFaults}
    {fetch : String → Option Markup} {now : Nat} {url : String} {s : PassState} :
    (∀ e ∈ (processUrl m faults fetch now url s).db,
      (∃ e0 ∈ s.db, Traceable now e e0)
      ∨ ∃ mk, fetch url = some mk
          ∧ ∃ r ∈ extract_ad_details m mk url, FreshFrom now r e)
    ∧ ((adIds s.db).Nodup
        → (adIds (processUrl m faults fetch now url s).db).Nodup) := by
  rcases hf : fetch url with _ | mk
  · rw [processUrl_noFetch hf]
    exact ⟨fun e he => .inl ⟨e, he, Traceable_refl now e⟩, id⟩
  · cases hpa : processAds m faults now (extract_ad_details m mk url) s with
    | ok s' =>
        rw [processUrl_run_ok hf hpa]
        obtain ⟨hprov, hnd⟩ := processAds_effects _ s s' (.inl hpa)
        refine ⟨?_, hnd⟩
        intro e he
        rcases hprov e he with h0 | ⟨r, hr, hfr⟩
        · exact .inl h0
        · exact .inr ⟨mk, rfl, r, hr, hfr⟩
    | error s' =>
        rw [processUrl_run_err hf hpa]
        obtain ⟨hprov, hnd⟩ := processAds_effects _ s s' (.inr hpa)
        refine ⟨?_, hnd⟩
        intro e he
        rcases hprov e he with h0 | ⟨r, hr, hfr⟩
        · exact .inl h0
        · exact .inr ⟨mk, rfl, r, hr, hfr⟩

theorem processUrls_effects {m : Monitor} {faults : String → AdFaults}
    {fetch : String → Option Markup} {now : Nat} :
    ∀ (us : List String) (s : PassState),
      (∀ e ∈ (processUrls m faults fetch now us s).db,
        (∃ e0 ∈ s.db, Traceable now e e0)
        ∨ ∃ u ∈ us, ∃ mk, fetch u = some mk
            ∧ ∃ r ∈ extract_ad_details m mk u, FreshFrom now r e)
      ∧ ((adIds s.db).Nodup
          → (adIds (processUrls m faults fetch now us s).db).Nodup) := by
  intro us
  induction us with
  | nil =>
      intro s
      exact ⟨fun e he => .inl ⟨e, he, Traceable_refl now e⟩, id⟩
  | cons u rest ih =>
      intro s
      obtain ⟨hprov1, hnd1⟩ := @processUrl_effects m faults fetch now u s
      obtain ⟨hprov2, hnd2⟩ := ih (processUrl m faults fetch now u s)
      constructor
      · intro e he
        rcases hprov2 e he with ⟨e1, he1, htr⟩ | ⟨u', hu', hrest⟩
        · rcases hprov1 e1 he1 with ⟨e0, he0, htr0⟩ | ⟨mk, hmk, r, hr, hfr⟩
          · exact .inl ⟨e0, he0, Traceable_trans htr htr0⟩
          · exact .inr ⟨u, List.mem_cons_self _ _, mk, hmk, r, hr,
              FreshFrom_of_traceable htr hfr⟩
        · exact .inr ⟨u', List.mem_cons_of_mem _ hu', hrest⟩
      · exact fun hn => hnd2 (hnd1 hn)

theorem prune_subset {db : DB} {cutoff : Nat} :
    ∀ e ∈ (prune_old_ads db cutoff).1, e ∈ db := by
  intro e he
  rw [prune_old_ads, deleteWhere_fst] at he
  exact (List.mem_filter.mp he).1

theorem adIds_prune_nodup {db : DB} {cutoff : Nat}
    (h : (adIds db).Nodup) : (adIds (prune_old_ads db cutoff).1).Nodup := by
  rw [prune_old_ads, deleteWhere_fst]
  exact h.sublist (List.Sublist.map _ (List.filter_sublist db))

/-- Claim C7 counterexample: the same listing appearing under sources
`"S1"` and `"S2"` in one pass is stored once, but the `url` column of
the stored row is the listing's canonical URL — not the source page of
first encounter (it equals neither source URL). -/
theorem cross_source_url_column_cex :
    (passBody mTwoSrc noFaults fetchShared 2000000 sEmpty).db
      = [{ url := urlShared, ad_id := urlShared, title := "tt", price := "$9",
           first_seen := 2000000, last_checked := 2000000 }]
    ∧ urlShared ≠ "S1" ∧ urlShared ≠ "S2" :=
  ⟨by decide, by decide, by decide⟩

/-- Claim C7 (amended): within one pass a canonical listing URL seen
under several sources is stored at most once — the pass preserves
uniqueness of the `ad_id` column — and every row the pass adds carries in
its `url` column the listing's own canonical URL (identical under either
source), with `ad_id` the hash of that URL and both timestamps the
pass's clock; pre-existing rows change at most their `last_checked`.  In
the concrete two-source scenario the listing is stored exactly once. -/
theorem cross_source_single_entry :
    (∀ m faults fetch now s,
        (adIds s.db).Nodup → (adIds (passBody m faults fetch now s).db).Nodup)
    ∧ (∀ m faults fetch now s e, e ∈ (passBody m faults fetch now s).db →
        (∃ e0 ∈ s.db, Traceable now e e0)
        ∨ ∃ u ∈ urls_to_monitor m, ∃ mk, fetch u = some mk
            ∧ ∃ r ∈ extract_ad_details m mk u,
                e.ad_id = r.1 ∧ e.url = r.2.2.2 ∧ e.title = r.2.1
                ∧ e.price = r.2.2.1 ∧ e.first_seen = now ∧ e.last_checked = now)
    ∧ (passBody mTwoSrc noFaults fetchShared 2000000 sEmpty).db
        = [{ url := urlShared, ad_id := urlShared, title := "tt", price := "$9",
             first_seen := 2000000, last_checked := 2000000 }] := by
  refine ⟨?_, ?_, by decide⟩
  · intro m faults fetch now s hn
    rw [passBody]
    exact adIds_prune_nodup
      (((processUrls_effects (urls_to_monitor m) s).2) hn)
  · intro m faults fetch now s e he
    rw [passBody] at he
    have he' := prune_subset e he
    rcases ((processUrls_effects (urls_to_monitor m) s).1) e he' with
      h0 | ⟨u, hu, mk, hmk, r, hr, hfr⟩
    · exact .inl h0
    · obtain ⟨a1, a2, a3, a4, a5, a6⟩ := hfr
      exact .inr ⟨u, hu, mk, hmk, r, hr, a1, a4, a2, a3, a5, a6⟩

/-- Witness for the amended C7: the `ad_id` column stays duplicate-free
across the concrete two-source pass. -/
theorem cross_source_single_entry_witness :
    (adIds (passBody mTwoSrc noFaults fetchShared 2000000 sEmpty).db).Nodup :=
  cross_source_single_entry.1 mTwoSrc noFaults fetchShared 2000000 sEmpty
    (by decide)
